import Mathlib

/-!
Verification model of `libsmtutil/Z3CHCInterface.cpp` (solidity).

We shallowly embed the counterexample-graph extraction (`cexGraph`, `fact`,
`name`, `arguments`), the query outcome mapping (`query`) and the rule
bookkeeping (`addRule`) over an explicit model of z3 expressions.

Z3 terms are modelled as trees carrying the solver-internal numeric id of each
node; a proof DAG with shared sub-proofs is represented by repeating the shared
subterm (with its identical id) wherever it is referenced, which is exactly what
the traversal observes through `id()`.  Fatal `smtAssert` contract violations
and the out-of-range argument access are modelled as distinct error values of an
`Except`; the C++ while-loop is given explicit fuel (one unit per iteration) and
we prove the chosen fuel is never exhausted, so the fuelled loop coincides with
the unfuelled one.
-/

/-- Association-list map from node ids, mirroring `std::map<unsigned, T>`:
lookup. -/
def getKey {α : Type} (m : List (Nat × α)) (k : Nat) : Option α :=
  match m with
  | [] => none
  | (k', v) :: rest => if k = k' then some v else getKey rest k

/-- `m.count(k) != 0` of `std::map`. -/
def hasKey {α : Type} (m : List (Nat × α)) (k : Nat) : Bool :=
  (getKey m k).isSome

/-- `m[k] = v` of `std::map`: insert or overwrite. -/
def setKey {α : Type} (m : List (Nat × α)) (k : Nat) (v : α) : List (Nat × α) :=
  match m with
  | [] => [(k, v)]
  | (k', v') :: rest => if k = k' then (k, v) :: rest else (k', v') :: setKey rest k v

/-- Z3 declaration kinds relevant to the extraction. -/
inductive Z3DeclKind where
  | opFalse
  | opPrHyperResolve
  | opOther (s : String)
deriving DecidableEq, Repr

/-- A z3 function declaration: its kind and its symbol name. -/
structure FuncDecl where
  kind : Z3DeclKind
  sym : String
deriving DecidableEq, Repr

/-- A z3 expression: an application (with node id, declaration and argument
list) or a non-application term (variable, quantifier, ...).  Shared sub-proofs
of a DAG appear as repeated identical subterms with the same id. -/
inductive Z3Expr where
  | app (eid : Nat) (decl : FuncDecl) (args : List Z3Expr)
  | leaf (eid : Nat) (txt : String)

namespace Z3Expr

mutual

/-- Boolean equality on z3 terms (structural, so it evaluates in the kernel). -/
def beq : Z3Expr → Z3Expr → Bool
  | .app i d args, .app i' d' args' => i == i' && d == d' && beqList args args'
  | .leaf i s, .leaf i' s' => i == i' && s == s'
  | .app .., .leaf .. => false
  | .leaf .., .app .. => false

/-- Boolean equality on lists of z3 terms. -/
def beqList : List Z3Expr → List Z3Expr → Bool
  | [], [] => true
  | e :: es, f :: fs => beq e f && beqList es fs
  | [], _ :: _ => false
  | _ :: _, [] => false

end

mutual

theorem beq_eq : ∀ a b : Z3Expr, beq a b = true ↔ a = b
  | .app i d args, .app i' d' args' => by
    simp only [beq, Bool.and_eq_true, beq_iff_eq, decide_eq_true_eq,
      Z3Expr.app.injEq]
    constructor
    · rintro ⟨⟨h1, h2⟩, h3⟩
      exact ⟨h1, h2, (beqList_eq args args').1 h3⟩
    · rintro ⟨h1, h2, h3⟩
      exact ⟨⟨h1, h2⟩, (beqList_eq args args').2 h3⟩
  | .app .., .leaf .. => by simp [beq]
  | .leaf .., .app .. => by simp [beq]
  | .leaf i s, .leaf i' s' => by simp [beq]

theorem beqList_eq : ∀ a b : List Z3Expr, beqList a b = true ↔ a = b
  | [], [] => by simp [beqList]
  | [], _ :: _ => by simp [beqList]
  | _ :: _, [] => by simp [beqList]
  | e :: es, f :: fs => by
    simp only [beqList, Bool.and_eq_true, List.cons.injEq]
    constructor
    · rintro ⟨h1, h2⟩
      exact ⟨(beq_eq e f).1 h1, (beqList_eq es fs).1 h2⟩
    · rintro ⟨h1, h2⟩
      exact ⟨(beq_eq e f).2 h1, (beqList_eq es fs).2 h2⟩

end

instance : DecidableEq Z3Expr := fun a b =>
  decidable_of_iff (beq a b = true) (beq_eq a b)

mutual

/-- Number of nodes of a z3 term (used as loop fuel). -/
def size : Z3Expr → Nat
  | .leaf .. => 1
  | .app _ _ args => 1 + sizeList args

/-- Total number of nodes of a list of z3 terms. -/
def sizeList : List Z3Expr → Nat
  | [] => 0
  | e :: es => size e + sizeList es

end

/-- `expr.id()`. -/
def exprId : Z3Expr → Nat
  | .app i _ _ => i
  | .leaf i _ => i

/-- `expr.is_app()`. -/
def is_app : Z3Expr → Bool
  | .app .. => true
  | .leaf .. => false

/-- `expr.num_args()`. -/
def num_args : Z3Expr → Nat
  | .app _ _ args => args.length
  | .leaf .. => 0

/-- `expr.arg(i)`; `none` models the out-of-range access (a z3 error). -/
def arg : Z3Expr → Nat → Option Z3Expr
  | .app _ _ args, i => args[i]?
  | .leaf .., _ => none

/-- The argument list of an application (empty for non-applications). -/
def argList : Z3Expr → List Z3Expr
  | .app _ _ args => args
  | .leaf .. => []

/-- `expr.decl()`.  z3 defines this for applications only; calling it on a
non-application raises a `z3::exception` (`Z3_INVALID_ARG`), modelled as
`none`. -/
def declOf : Z3Expr → Option FuncDecl
  | .app _ d _ => some d
  | .leaf _ _ => none

/-- `expr.to_string()`: rendering is engine-owned; modelled as the head symbol
or the leaf text. -/
def toStr : Z3Expr → String
  | .app _ d _ => d.sym
  | .leaf _ s => s

end Z3Expr

namespace Z3CHCInterface

/-- `Z3CHCInterface::fact` (lines 180-186): requires an application
(`smtAssert`, modelled as `none`); the fact of a zero-argument application is
the node itself, otherwise its last argument. -/
def fact (n : Z3Expr) : Option Z3Expr :=
  if n.is_app then
    if n.num_args = 0 then some n
    else n.arg (n.num_args - 1)
  else none

/-- `Z3CHCInterface::name` (lines 188-192): `smtAssert(_predicate.is_app())`
(modelled as `none`), then the declaration's symbol. -/
def name : Z3Expr → Option String
  | .app _ d _ => some d.sym
  | .leaf _ _ => none

/-- `Z3CHCInterface::arguments` (lines 194-201). -/
def arguments (p : Z3Expr) : Option (List String) :=
  if p.is_app then some (p.argList.map Z3Expr.toStr) else none

end Z3CHCInterface

/-- The counterexample graph (`CHCSolverInterface::CexGraph`): node id to
`(predicate name, rendered arguments)`, and node id to ordered premise ids. -/
structure CexGraph where
  nodes : List (Nat × (String × List String))
  edges : List (Nat × List Nat)
deriving DecidableEq, Repr

/-- The empty graph. -/
def CexGraph.empty : CexGraph := ⟨[], []⟩

/-- Distinct failure modes of the extraction: the fatal `smtAssert` contract
violations at the entry (lines 136-137), at a pop (line 151), at a
hyper-resolution node without arguments (line 156) and inside
`fact`/`name`/`arguments` (lines 182, 190, 196); the two z3-level
`z3::exception`s — the out-of-range argument access (line 140) and `decl()`
on a non-application fact (line 137) — which are caught at the query
boundary, unlike the fatal asserts; and fuel exhaustion, an artifact of the
fuelled model that is proved unreachable. -/
inductive ExtractErr where
  | entryAssert
  | argRange
  | declError
  | popAssert
  | hyperArgsAssert
  | appAssert
  | fuelOut
deriving DecidableEq, Repr

/-- `{name(fact(n)), arguments(fact(n))}` (lines 143 and 168). -/
def mkCexNode (n : Z3Expr) : Except ExtractErr (String × List String) :=
  match Z3CHCInterface.fact n with
  | none => .error .appAssert
  | some f =>
    match Z3CHCInterface.name f, Z3CHCInterface.arguments f with
    | some nm, some ags => .ok (nm, ags)
    | _, _ => .error .appAssert

/-- State of the extraction loop: the explicit stack (head = top), the visited
id set and the graph under construction. -/
structure LoopState where
  proofStack : List Z3Expr
  visited : List Nat
  graph : CexGraph
deriving DecidableEq

/-- One iteration of the inner premise loop of `cexGraph` (lines 159-172), for
the premise at argument position `i` of the popped node `pn`: push the premise
if its id is unvisited, insert it into the node map (with an empty edge list)
if its id is absent there, then unconditionally append an edge from `pn`'s id
to the premise's id. -/
def stepPremise (pn : Z3Expr) (i : Nat) (st : LoopState) :
    Except ExtractErr LoopState :=
  match pn.arg i with
  | none => .error .argRange
  | some child =>
    let st1 :=
      if st.visited.contains child.exprId then st
      else { st with
             visited := child.exprId :: st.visited,
             proofStack := child :: st.proofStack }
    match
      (if hasKey st1.graph.nodes child.exprId then Except.ok st1.graph
       else
         match mkCexNode child with
         | .error e => .error e
         | .ok nd =>
           .ok { nodes := setKey st1.graph.nodes child.exprId nd,
                 edges := setKey st1.graph.edges child.exprId [] }) with
    | .error e => .error e
    | .ok g1 =>
      .ok { st1 with
            graph :=
              { g1 with
                edges := setKey g1.edges pn.exprId
                  ((getKey g1.edges pn.exprId).getD [] ++ [child.exprId]) } }

/-- The inner premise loop of `cexGraph` (lines 157-173):
`for (unsigned i = 1; i < proofNode.num_args() - 1; ++i)`, iterated with an
explicit countdown `r` (the number of remaining iterations,
`num_args - 1 - i`) so the recursion is structural. -/
def processPremises (pn : Z3Expr) (i : Nat) (r : Nat) (st : LoopState) :
    Except ExtractErr LoopState :=
  match r with
  | 0 => .ok st
  | r' + 1 =>
    match stepPremise pn i st with
    | .error e => .error e
    | .ok st1 => processPremises pn (i + 1) r' st1

/-- One hyper-resolution node has `num_args - 2` premises (positions `1` to
`num_args - 2`); this is the iteration count of the inner loop. -/
def premCount (pn : Z3Expr) : Nat := pn.num_args - 2

/-- `proofNode.is_app() && proofNode.decl().decl_kind() == Z3_OP_PR_HYPER_RESOLVE`
(line 154).  `&&` short-circuits, so `decl()` is only evaluated on
applications, where it never raises. -/
def isHyper (pn : Z3Expr) : Bool :=
  pn.is_app && ((pn.declOf.map FuncDecl.kind) == some Z3DeclKind.opPrHyperResolve)

/-- The while loop of `cexGraph` (lines 148-175), fuelled: pop the top node
(asserting its id is in the node map), and if it is a hyper-resolution
application, process its premises. -/
def cexLoop (fuel : Nat) (st : LoopState) : Except ExtractErr CexGraph :=
  match fuel, st.proofStack with
  | _, [] => .ok st.graph
  | 0, _ :: _ => .error .fuelOut
  | fuel' + 1, pn :: rest =>
    if hasKey st.graph.nodes pn.exprId then
      let st1 : LoopState := { st with proofStack := rest }
      if isHyper pn then
        if 0 < pn.num_args then
          match processPremises pn 1 (premCount pn) st1 with
          | .error e => .error e
          | .ok st2 => cexLoop fuel' st2
        else .error .hyperArgsAssert
      else cexLoop fuel' st1
    else .error .popAssert

/-- `Z3CHCInterface::cexGraph` (lines 128-178): entry asserts, seeding with the
root's first child, and the traversal loop.  The fuel `sizeOf root + 1` is
proved sufficient (`cexGraph` never returns `fuelOut`). -/
def cexGraph (pf : Z3Expr) : Except ExtractErr CexGraph :=
  if pf.is_app then
    match Z3CHCInterface.fact pf with
    | none => .error .entryAssert
    | some f =>
      match f.declOf with
      | none => .error .declError
      | some d =>
        if d.kind = Z3DeclKind.opFalse then
          match pf.arg 0 with
          | none => .error .argRange
          | some root =>
            match mkCexNode root with
            | .error e => .error e
            | .ok nd =>
              cexLoop (root.size + 1)
                { proofStack := [root],
                  visited := [root.exprId],
                  graph := { nodes := setKey [] root.exprId nd, edges := [] } }
        else .error .entryAssert
  else .error .entryAssert

/-- `CheckResult` of `libsmtutil` as used by `Z3CHCInterface::query`. -/
inductive CheckResult where
  | SATISFIABLE
  | UNSATISFIABLE
  | UNKNOWN
  | ERROR
deriving DecidableEq, Repr

/-- The verdict of `m_solver.query` (the external Spacer engine): the goal is
reachable (with a refutation proof from `get_answer`), unreachable,
indeterminate, or the engine raised a `z3::exception`. -/
inductive EngineResponse where
  | sat (pf : Z3Expr)
  | unsat
  | unknown
  | engineError

/-- Outcome of the external translation `m_z3Interface->toZ3Expr(_expr)`:
either the translated term, or a raised `z3::exception`. -/
inductive TranslationOutcome where
  | ok (e : Z3Expr)
  | raised

/-- Result of `Z3CHCInterface::query`: either the returned pair, or a fatal
`smtAssert` contract violation that propagates (it is not a `z3::exception`,
so the catch clause does not stop it). -/
inductive QueryOutcome where
  | done (r : CheckResult) (g : CexGraph)
  | fatalAssert (e : ExtractErr)
deriving DecidableEq, Repr

/-- `Z3CHCInterface::query` (lines 83-120), parameterized by the translation
outcome for the goal and by the engine (an oracle from translated goal to
verdict).  `z3::exception`s (from translation, from the engine, or from the
out-of-range argument access inside `cexGraph`) are caught at the query
boundary and downgraded to `(ERROR, {})`; the local graph built by `cexGraph`
is discarded on that path, so no partial nodes are retained. -/
def query (tr : TranslationOutcome) (engine : Z3Expr → EngineResponse) :
    QueryOutcome :=
  match tr with
  | .raised => .done .ERROR CexGraph.empty
  | .ok goal =>
    match engine goal with
    | .sat pf =>
      match cexGraph pf with
      | .ok g => .done .SATISFIABLE g
      | .error .argRange => .done .ERROR CexGraph.empty
      | .error .declError => .done .ERROR CexGraph.empty
      | .error e => .fatalAssert e
    | .unsat => .done .UNSATISFIABLE CexGraph.empty
    | .unknown => .done .UNKNOWN CexGraph.empty
    | .engineError => .done .ERROR CexGraph.empty

/-- A rule as held by the fixpoint solver: the translated rule itself, or the
translated rule wrapped by `z3::forall` over a list of variable handles. -/
inductive Z3RuleExpr where
  | base (rule : Z3Expr)
  | forallQ (vars : List Z3Expr) (rule : Z3Expr)

/-- `Z3CHCInterface::addRule` (lines 68-81), parameterized by the translated
rule (translation is external) and by the registry's currently declared
constants (`m_z3Interface->constants()`, a name-keyed map whose mapped values
are the variable handles pushed into the quantifier).  The rule, quantified
over exactly the current constants when there are any, is added to the solver
tagged with the symbol `nm`. -/
def addRule (constants : List (String × Z3Expr))
    (solverRules : List (Z3RuleExpr × String)) (rule : Z3Expr) (nm : String) :
    List (Z3RuleExpr × String) :=
  if constants.isEmpty then
    solverRules ++ [(.base rule, nm)]
  else
    solverRules ++ [(.forallQ (constants.map Prod.snd) rule, nm)]

/-- The ids of the premises of a hyper-resolution node: the ids of its
arguments at positions `1 .. num_args - 2` (excluding the justification at
position `0` and the conclusion last), in argument order. -/
def premIds (pn : Z3Expr) : List Nat :=
  ((pn.argList.drop 1).dropLast).map Z3Expr.exprId

/-- The ids of the premises of `pn` from position `i` on (positions
`i .. num_args - 2`). -/
def premTail (pn : Z3Expr) (i : Nat) : List Nat :=
  ((pn.argList.drop i).take (pn.num_args - 1 - i)).map Z3Expr.exprId

mutual

/-- All subterms of a z3 term (the term itself included). -/
def allSub : Z3Expr → List Z3Expr
  | .leaf i s => [.leaf i s]
  | .app i d args => .app i d args :: allSubList args

/-- All subterms of the terms of a list. -/
def allSubList : List Z3Expr → List Z3Expr
  | [] => []
  | e :: es => allSub e ++ allSubList es

end

mutual

/-- The set of ids of all subterms of a z3 term. -/
def subIds : Z3Expr → Finset Nat
  | .leaf i _ => {i}
  | .app i _ args => insert i (subIdsList args)

/-- The set of ids of all subterms of the terms of a list. -/
def subIdsList : List Z3Expr → Finset Nat
  | [] => ∅
  | e :: es => subIds e ∪ subIdsList es

end

/-- Well-formed proof object: within it, the solver-internal id determines the
term (z3 guarantees distinct terms have distinct ids). -/
def WFProof (s : Z3Expr) : Prop :=
  ∀ a ∈ allSub s, ∀ b ∈ allSub s, a.exprId = b.exprId → a = b

instance (s : Z3Expr) : Decidable (WFProof s) := by
  unfold WFProof; infer_instance

/-- The ids currently on the explicit stack. -/
def stackIds (st : LoopState) : List Nat := st.proofStack.map Z3Expr.exprId

/-- Termination measure of the extraction loop relative to the seed `s`: the
stack size plus the number of subterm ids not yet visited.  Every loop
iteration decreases it by exactly one. -/
def stMeasure (s : Z3Expr) (st : LoopState) : Nat :=
  st.proofStack.length + ((subIds s) \ st.visited.toFinset).card

/-- The loop invariant of the traversal (no well-formedness needed): every
stacked term is a subterm of the seed with a visited id; visited ids and
node-map keys coincide; edge-list values and edge-map keys are node-map keys;
stacked ids and node-map keys have no duplicates. -/
structure InvA (s : Z3Expr) (st : LoopState) : Prop where
  stack_sub : ∀ e ∈ st.proofStack, e ∈ allSub s
  stack_visited : ∀ e ∈ st.proofStack, e.exprId ∈ st.visited
  visited_nodes : ∀ i, i ∈ st.visited ↔ hasKey st.graph.nodes i = true
  edge_vals : ∀ i l, getKey st.graph.edges i = some l →
    ∀ v ∈ l, hasKey st.graph.nodes v = true
  edge_keys : ∀ i l, getKey st.graph.edges i = some l →
    hasKey st.graph.nodes i = true
  stack_nodup : (stackIds st).Nodup
  nodes_nodup : (st.graph.nodes.map Prod.fst).Nodup

theorem getKey_setKey_self {α : Type} (m : List (Nat × α)) (k : Nat) (v : α) :
    getKey (setKey m k v) k = some v := by
  induction m with
  | nil => simp [setKey, getKey]
  | cons hd tl ih =>
    obtain ⟨k', v'⟩ := hd
    by_cases h : k = k'
    · simp [setKey, getKey, h]
    · simp [setKey, getKey, h, ih]

theorem getKey_setKey_ne {α : Type} (m : List (Nat × α)) (k k' : Nat) (v : α)
    (h : k' ≠ k) : getKey (setKey m k v) k' = getKey m k' := by
  induction m with
  | nil => simp [setKey, getKey, h]
  | cons hd tl ih =>
    obtain ⟨k0, v0⟩ := hd
    by_cases h2 : k = k0
    · subst h2
      simp [setKey, getKey, h]
    · by_cases h3 : k' = k0
      · simp [setKey, getKey, h2, h3]
      · simp [setKey, getKey, h2, h3, ih]

theorem hasKey_setKey_self {α : Type} (m : List (Nat × α)) (k : Nat) (v : α) :
    hasKey (setKey m k v) k = true := by
  simp [hasKey, getKey_setKey_self]

theorem hasKey_setKey_iff {α : Type} (m : List (Nat × α)) (k k' : Nat) (v : α) :
    hasKey (setKey m k v) k' = true ↔ k' = k ∨ hasKey m k' = true := by
  by_cases h : k' = k
  · subst h
    simp [hasKey_setKey_self]
  · simp [hasKey, getKey_setKey_ne m k k' v h, h]

theorem hasKey_iff_getKey {α : Type} (m : List (Nat × α)) (k : Nat) :
    hasKey m k = true ↔ ∃ v, getKey m k = some v := by
  cases hg : getKey m k <;> simp [hasKey, hg]

theorem mem_keys_iff_hasKey {α : Type} (m : List (Nat × α)) (k : Nat) :
    k ∈ m.map Prod.fst ↔ hasKey m k = true := by
  induction m with
  | nil => simp [hasKey, getKey]
  | cons hd tl ih =>
    obtain ⟨k0, v0⟩ := hd
    by_cases h : k = k0
    · subst h
      simp [hasKey, getKey]
    · simp [hasKey, getKey, h] at ih ⊢
      exact ih

theorem keys_setKey_subset {α : Type} (m : List (Nat × α)) (k j : Nat) (v : α)
    (h : j ∈ (setKey m k v).map Prod.fst) : j = k ∨ j ∈ m.map Prod.fst := by
  induction m with
  | nil => simpa [setKey] using h
  | cons hd tl ih =>
    obtain ⟨k0, v0⟩ := hd
    by_cases h2 : k = k0
    · subst h2
      rcases (by simpa [setKey] using h : j = k ∨ j ∈ tl.map Prod.fst) with h3 | h3
      · exact Or.inl h3
      · exact Or.inr (by simp [h3])
    · rcases (by simpa [setKey, h2] using h :
          j = k0 ∨ j ∈ (setKey tl k v).map Prod.fst) with h3 | h3
      · exact Or.inr (by simp [h3])
      · rcases ih h3 with h4 | h4
        · exact Or.inl h4
        · exact Or.inr (by simp [h4])

theorem nodup_keys_setKey {α : Type} (m : List (Nat × α)) (k : Nat) (v : α)
    (h : (m.map Prod.fst).Nodup) : ((setKey m k v).map Prod.fst).Nodup := by
  induction m with
  | nil => simp [setKey]
  | cons hd tl ih =>
    obtain ⟨k0, v0⟩ := hd
    simp only [List.map_cons, List.nodup_cons] at h
    by_cases h2 : k = k0
    · subst h2
      simpa [setKey] using h
    · simp only [setKey, if_neg h2, List.map_cons, List.nodup_cons]
      refine ⟨fun hmem => ?_, ih h.2⟩
      rcases keys_setKey_subset tl k k0 v hmem with h3 | h3
      · exact h2 h3.symm
      · exact h.1 h3

theorem count_keys_eq_one {α : Type} (m : List (Nat × α)) (k : Nat)
    (hn : (m.map Prod.fst).Nodup) (hk : hasKey m k = true) :
    (m.map Prod.fst).count k = 1 :=
  List.count_eq_one_of_mem hn ((mem_keys_iff_hasKey m k).2 hk)

namespace Z3Expr

theorem arg_mem_argList {pn c : Z3Expr} {i : Nat} (h : pn.arg i = some c) :
    c ∈ pn.argList := by
  cases pn with
  | app eid d args =>
    simp only [arg] at h
    simpa [argList] using List.getElem?_mem h
  | leaf eid t => simp [arg] at h

theorem arg_isSome_of_lt {pn : Z3Expr} {i : Nat} (happ : pn.is_app = true)
    (h : i < pn.num_args) : ∃ c, pn.arg i = some c := by
  cases pn with
  | app eid d args =>
    simp only [num_args] at h
    exact ⟨args[i], by simp [arg, List.getElem?_eq_getElem h]⟩
  | leaf eid t => simp [is_app] at happ

end Z3Expr

theorem mem_allSub_self (e : Z3Expr) : e ∈ allSub e := by
  cases e <;> simp [allSub]

theorem mem_allSubList_of_mem {c x : Z3Expr} {l : List Z3Expr} (hc : c ∈ l)
    (hx : x ∈ allSub c) : x ∈ allSubList l := by
  induction l with
  | nil => simp at hc
  | cons e es ih =>
    simp only [allSubList, List.mem_append]
    rcases List.mem_cons.mp hc with h | h
    · exact Or.inl (h ▸ hx)
    · exact Or.inr (ih h)

mutual

theorem allSub_closed : ∀ (s pn : Z3Expr), pn ∈ allSub s →
    ∀ c ∈ pn.argList, c ∈ allSub s
  | .leaf i t, pn, hpn, c, hc => by
    simp only [allSub, List.mem_singleton] at hpn
    subst hpn
    simp [Z3Expr.argList] at hc
  | .app i d args, pn, hpn, c, hc => by
    simp only [allSub, List.mem_cons] at hpn
    rcases hpn with h | h
    · subst h
      simp only [Z3Expr.argList] at hc
      exact List.mem_cons_of_mem _ (mem_allSubList_of_mem hc (mem_allSub_self c))
    · exact List.mem_cons_of_mem _ (allSubList_closed args pn h c hc)

theorem allSubList_closed : ∀ (l : List Z3Expr) (pn : Z3Expr),
    pn ∈ allSubList l → ∀ c ∈ pn.argList, c ∈ allSubList l
  | [], pn, hpn, _, _ => by simp [allSubList] at hpn
  | e :: es, pn, hpn, c, hc => by
    simp only [allSubList, List.mem_append] at hpn ⊢
    rcases hpn with h | h
    · exact Or.inl (allSub_closed e pn h c hc)
    · exact Or.inr (allSubList_closed es pn h c hc)

end

mutual

theorem exprId_mem_subIds : ∀ (s x : Z3Expr), x ∈ allSub s →
    x.exprId ∈ subIds s
  | .leaf i t, x, hx => by
    simp only [allSub, List.mem_singleton] at hx
    subst hx
    simp [subIds, Z3Expr.exprId]
  | .app i d args, x, hx => by
    simp only [allSub, List.mem_cons] at hx
    simp only [subIds, Finset.mem_insert]
    rcases hx with h | h
    · subst h
      exact Or.inl rfl
    · exact Or.inr (exprId_mem_subIdsList args x h)

theorem exprId_mem_subIdsList : ∀ (l : List Z3Expr) (x : Z3Expr),
    x ∈ allSubList l → x.exprId ∈ subIdsList l
  | [], x, hx => by simp [allSubList] at hx
  | e :: es, x, hx => by
    simp only [allSubList, List.mem_append] at hx
    simp only [subIdsList, Finset.mem_union]
    rcases hx with h | h
    · exact Or.inl (exprId_mem_subIds e x h)
    · exact Or.inr (exprId_mem_subIdsList es x h)

end

mutual

theorem card_subIds_le_size : ∀ e : Z3Expr, (subIds e).card ≤ e.size
  | .leaf i t => by simp [subIds, Z3Expr.size]
  | .app i d args => by
    simp only [subIds, Z3Expr.size]
    calc (insert i (subIdsList args)).card
        ≤ (subIdsList args).card + 1 := Finset.card_insert_le _ _
      _ ≤ Z3Expr.sizeList args + 1 :=
        Nat.add_le_add_right (card_subIdsList_le args) 1
      _ = 1 + Z3Expr.sizeList args := Nat.add_comm _ _

theorem card_subIdsList_le : ∀ l : List Z3Expr,
    (subIdsList l).card ≤ Z3Expr.sizeList l
  | [] => by simp [subIdsList, Z3Expr.sizeList]
  | e :: es => by
    simp only [subIdsList, Z3Expr.sizeList]
    calc (subIds e ∪ subIdsList es).card
        ≤ (subIds e).card + (subIdsList es).card := Finset.card_union_le _ _
      _ ≤ e.size + Z3Expr.sizeList es :=
        Nat.add_le_add (card_subIds_le_size e) (card_subIdsList_le es)

end

/-- Facts carried from a state `st` to a state `st'` by one or more iterations
of the premise loop of the popped node `pn` (everything except the effect on
`pn`'s own edge list, whose shape depends on the number of iterations). -/
structure StepFacts (s pn : Z3Expr) (st st' : LoopState) : Prop where
  inv : InvA s st'
  node : hasKey st'.graph.nodes pn.exprId = true
  meas : stMeasure s st' = stMeasure s st
  vis_mono : ∀ j, j ∈ st.visited → j ∈ st'.visited
  vis_new : ∀ j, j ∈ st'.visited → j ∈ st.visited ∨ j ∈ stackIds st'
  nodes_mono : ∀ j, hasKey st.graph.nodes j = true → hasKey st'.graph.nodes j = true
  stack_ext : ∃ pushed, st'.proofStack = pushed ++ st.proofStack ∧
    ∀ e ∈ pushed, e.exprId ∉ st.visited
  edge_other : ∀ j, j ≠ pn.exprId →
    getKey st'.graph.edges j = getKey st.graph.edges j ∨
    (getKey st.graph.edges j = none ∧ getKey st'.graph.edges j = some [] ∧
      j ∈ st'.visited ∧ j ∈ stackIds st')

theorem StepFacts.base {s pn : Z3Expr} {st : LoopState} (hinv : InvA s st)
    (hnode : hasKey st.graph.nodes pn.exprId = true) : StepFacts s pn st st :=
  ⟨hinv, hnode, Eq.refl _, fun _ h => h, fun _ h => Or.inl h, fun _ h => h,
    ⟨[], by simp, by simp⟩, fun _ _ => Or.inl (Eq.refl _)⟩

theorem StepFacts.trans {s pn : Z3Expr} {st st1 st' : LoopState}
    (h1 : StepFacts s pn st st1) (h2 : StepFacts s pn st1 st') :
    StepFacts s pn st st' := by
  obtain ⟨p2, hp2, hp2f⟩ := h2.stack_ext
  obtain ⟨p1, hp1, hp1f⟩ := h1.stack_ext
  have hstack12 : ∀ j, j ∈ stackIds st1 → j ∈ stackIds st' := by
    intro j hj
    simp only [stackIds, hp2, List.map_append, List.mem_append]
    exact Or.inr hj
  refine ⟨h2.inv, h2.node, h2.meas.trans h1.meas,
    fun j hj => h2.vis_mono j (h1.vis_mono j hj), ?_,
    fun j hj => h2.nodes_mono j (h1.nodes_mono j hj), ?_, ?_⟩
  · intro j hj
    rcases h2.vis_new j hj with hj1 | hj1
    · rcases h1.vis_new j hj1 with hj2 | hj2
      · exact Or.inl hj2
      · exact Or.inr (hstack12 j hj2)
    · exact Or.inr hj1
  · refine ⟨p2 ++ p1, by rw [hp2, hp1, List.append_assoc], ?_⟩
    intro e he
    rcases List.mem_append.mp he with he1 | he1
    · intro hc
      exact hp2f e he1 (h1.vis_mono _ hc)
    · exact hp1f e he1
  · intro j hj
    rcases h2.edge_other j hj with he2 | ⟨he2a, he2b, he2c, he2d⟩
    · rcases h1.edge_other j hj with he1 | ⟨he1a, he1b, he1c, he1d⟩
      · exact Or.inl (he2.trans he1)
      · exact Or.inr ⟨he1a, he2.trans he1b, h2.vis_mono j he1c, hstack12 j he1d⟩
    · rcases h1.edge_other j hj with he1 | ⟨he1a, he1b, he1c, he1d⟩
      · exact Or.inr ⟨he1.symm.trans he2a, he2b, he2c, he2d⟩
      · rw [he1b] at he2a
        exact absurd he2a (by simp)

theorem premTail_length (pn : Z3Expr) (i : Nat) :
    (premTail pn i).length = pn.num_args - 1 - i := by
  cases pn with
  | app eid d args =>
    simp only [premTail, Z3Expr.argList, Z3Expr.num_args, List.length_map,
      List.length_take, List.length_drop]
    omega
  | leaf eid t => simp [premTail, Z3Expr.argList, Z3Expr.num_args]

theorem premTail_cons {pn c : Z3Expr} {i : Nat} (harg : pn.arg i = some c)
    (hlt : i < pn.num_args - 1) :
    premTail pn i = c.exprId :: premTail pn (i + 1) := by
  cases pn with
  | app eid d args =>
    simp only [Z3Expr.arg] at harg
    have hi : i < args.length := by
      by_contra hc
      rw [List.getElem?_eq_none (by omega)] at harg
      exact absurd harg (by simp)
    have hcc : args[i] = c := by
      rw [List.getElem?_eq_getElem hi] at harg
      exact Option.some.inj harg
    simp only [Z3Expr.num_args] at hlt
    simp only [premTail, Z3Expr.argList, Z3Expr.num_args]
    rw [List.drop_eq_getElem_cons hi, hcc]
    have h1 : args.length - 1 - i = (args.length - 1 - (i + 1)) + 1 := by omega
    rw [h1, List.take_succ_cons, List.map_cons]
  | leaf eid t => simp [Z3Expr.arg] at harg

theorem premTail_one (pn : Z3Expr) : premTail pn 1 = premIds pn := by
  cases pn with
  | app eid d args =>
    simp only [premTail, premIds, Z3Expr.argList, Z3Expr.num_args]
    rw [List.dropLast_eq_take, List.length_drop]
  | leaf eid t => simp [premTail, premIds, Z3Expr.argList]

theorem premIds_length (pn : Z3Expr) :
    (premIds pn).length = pn.num_args - 2 := by
  rw [← premTail_one, premTail_length]
  omega

theorem mkCexNode_err {n : Z3Expr} {e : ExtractErr}
    (h : mkCexNode n = .error e) : e = .appAssert := by
  unfold mkCexNode at h
  split at h
  · exact (Except.error.inj h).symm
  · split at h
    · exact absurd h (by simp)
    · exact (Except.error.inj h).symm

theorem stMeasure_push (s : Z3Expr) (st : LoopState) (c : Z3Expr)
    (hmem : c.exprId ∈ subIds s) (hnv : c.exprId ∉ st.visited) (g' : CexGraph) :
    stMeasure s
      { proofStack := c :: st.proofStack, visited := c.exprId :: st.visited,
        graph := g' } = stMeasure s st := by
  simp only [stMeasure, List.length_cons, List.toFinset_cons]
  have h1 : subIds s \ insert c.exprId st.visited.toFinset
      = (subIds s \ st.visited.toFinset).erase c.exprId :=
    Finset.sdiff_insert _ _ _
  have h2 : c.exprId ∈ subIds s \ st.visited.toFinset := by
    simp [Finset.mem_sdiff, hmem, List.mem_toFinset, hnv]
  have h3 : 0 < (subIds s \ st.visited.toFinset).card :=
    Finset.card_pos.mpr ⟨_, h2⟩
  rw [h1, Finset.card_erase_of_mem h2]
  omega

theorem stepPremise_facts (s pn : Z3Expr) (i : Nat) (st st' : LoopState)
    (hpn : pn ∈ allSub s)
    (hnode : hasKey st.graph.nodes pn.exprId = true)
    (hinv : InvA s st)
    (h : stepPremise pn i st = .ok st') :
    StepFacts s pn st st' ∧
    ∃ c, pn.arg i = some c ∧
      getKey st'.graph.edges pn.exprId =
        some ((getKey st.graph.edges pn.exprId).getD [] ++ [c.exprId]) := by
  unfold stepPremise at h
  rcases harg : pn.arg i with _ | child
  · rw [harg] at h
    exact absurd h (by simp)
  rw [harg] at h
  by_cases hv : st.visited.contains child.exprId = true
  · -- the premise id was already visited: no push, no node insert
    have hvm : child.exprId ∈ st.visited := by
      simpa using hv
    have hkc : hasKey st.graph.nodes child.exprId = true :=
      (hinv.visited_nodes _).1 hvm
    simp only [hv, if_true, hkc, if_pos] at h
    simp only [Except.ok.injEq] at h
    subst h
    constructor
    · refine ⟨⟨hinv.stack_sub, hinv.stack_visited, hinv.visited_nodes,
        ?_, ?_, hinv.stack_nodup, hinv.nodes_nodup⟩,
        hnode, rfl, fun _ hz => hz, fun _ hz => Or.inl hz, fun _ hz => hz,
        ⟨[], by simp, by simp⟩, ?_⟩
      · intro j l hj v hvv
        by_cases hji : j = pn.exprId
        · subst hji
          rw [getKey_setKey_self] at hj
          have hl := Option.some.inj hj
          subst hl
          rcases List.mem_append.mp hvv with hvo | hvc
          · rcases hold : getKey st.graph.edges pn.exprId with _ | l0
            · rw [hold] at hvo
              simp at hvo
            · rw [hold] at hvo
              exact hinv.edge_vals _ l0 hold v hvo
          · have : v = child.exprId := by simpa using hvc
            subst this
            exact hkc
        · rw [getKey_setKey_ne _ _ _ _ hji] at hj
          exact hinv.edge_vals _ _ hj v hvv
      · intro j l hj
        by_cases hji : j = pn.exprId
        · subst hji
          exact hnode
        · rw [getKey_setKey_ne _ _ _ _ hji] at hj
          exact hinv.edge_keys _ _ hj
      · intro j hji
        exact Or.inl (getKey_setKey_ne _ _ _ _ hji)
    · exact ⟨child, rfl, getKey_setKey_self _ _ _⟩
  · -- a fresh premise id: push it, insert it into the node map
    have hnv : child.exprId ∉ st.visited := by
      simpa using hv
    have hkc : hasKey st.graph.nodes child.exprId = false := by
      rcases hb : hasKey st.graph.nodes child.exprId
      · rfl
      · exact absurd ((hinv.visited_nodes _).2 hb) hnv
    have hne : pn.exprId ≠ child.exprId := by
      intro hc
      rw [hc, hkc] at hnode
      exact Bool.false_ne_true hnode
    have hchild_sub : child ∈ allSub s :=
      allSub_closed s pn hpn child (Z3Expr.arg_mem_argList harg)
    have hchild_id : child.exprId ∈ subIds s :=
      exprId_mem_subIds s child hchild_sub
    have hec : getKey st.graph.edges child.exprId = none := by
      rcases he : getKey st.graph.edges child.exprId with _ | l0
      · rfl
      · rw [hinv.edge_keys _ _ he] at hkc
        exact absurd hkc (by simp)
    simp only [hv, if_false, hkc, Bool.false_eq_true] at h
    rcases hmk : mkCexNode child with e | nd
    · rw [hmk] at h
      exact absurd h (by simp)
    rw [hmk] at h
    simp only [Except.ok.injEq] at h
    subst h
    have hE1 : getKey (setKey st.graph.edges child.exprId ([] : List Nat))
        pn.exprId = getKey st.graph.edges pn.exprId :=
      getKey_setKey_ne _ _ _ _ hne
    constructor
    · refine ⟨⟨?_, ?_, ?_, ?_, ?_, ?_, nodup_keys_setKey _ _ _ hinv.nodes_nodup⟩,
        ?_, ?_, ?_, ?_, ?_, ⟨[child], by simp, by simpa using hnv⟩, ?_⟩
      · intro e he
        rcases List.mem_cons.mp he with he1 | he1
        · exact he1 ▸ hchild_sub
        · exact hinv.stack_sub e he1
      · intro e he
        rcases List.mem_cons.mp he with he1 | he1
        · exact he1 ▸ List.mem_cons_self _ _
        · exact List.mem_cons_of_mem _ (hinv.stack_visited e he1)
      · intro j
        rw [List.mem_cons, hasKey_setKey_iff, hinv.visited_nodes j]
      · intro j l hj v hvv
        by_cases hji : j = pn.exprId
        · subst hji
          rw [getKey_setKey_self] at hj
          have hl := Option.some.inj hj
          subst hl
          rw [hE1] at hvv
          rcases List.mem_append.mp hvv with hvo | hvc
          · rcases hold : getKey st.graph.edges pn.exprId with _ | l0
            · rw [hold] at hvo
              simp at hvo
            · rw [hold] at hvo
              exact (hasKey_setKey_iff _ _ _ _).2
                (Or.inr (hinv.edge_vals _ l0 hold v hvo))
          · have : v = child.exprId := by simpa using hvc
            subst this
            exact hasKey_setKey_self _ _ _
        · rw [getKey_setKey_ne _ _ _ _ hji] at hj
          by_cases hjc : j = child.exprId
          · subst hjc
            rw [getKey_setKey_self] at hj
            have hl := Option.some.inj hj
            subst hl
            simp at hvv
          · rw [getKey_setKey_ne _ _ _ _ hjc] at hj
            exact (hasKey_setKey_iff _ _ _ _).2
              (Or.inr (hinv.edge_vals _ _ hj v hvv))
      · intro j l hj
        by_cases hji : j = pn.exprId
        · subst hji
          exact (hasKey_setKey_iff _ _ _ _).2 (Or.inr hnode)
        · by_cases hjc : j = child.exprId
          · subst hjc
            exact hasKey_setKey_self _ _ _
          · rw [getKey_setKey_ne _ _ _ _ hji, getKey_setKey_ne _ _ _ _ hjc] at hj
            exact (hasKey_setKey_iff _ _ _ _).2 (Or.inr (hinv.edge_keys _ _ hj))
      · simp only [stackIds, List.map_cons, List.nodup_cons]
        refine ⟨?_, hinv.stack_nodup⟩
        intro hc
        rcases List.mem_map.mp hc with ⟨e, he, heid⟩
        exact hnv (heid ▸ hinv.stack_visited e he)
      · exact (hasKey_setKey_iff _ _ _ _).2 (Or.inr hnode)
      · exact stMeasure_push s st child hchild_id hnv _
      · intro j hj
        exact List.mem_cons_of_mem _ hj
      · intro j hj
        rcases List.mem_cons.mp hj with hj1 | hj1
        · refine Or.inr ?_
          simp [stackIds, hj1]
        · exact Or.inl hj1
      · intro j hj
        exact (hasKey_setKey_iff _ _ _ _).2 (Or.inr hj)
      · intro j hji
        rw [getKey_setKey_ne _ _ _ _ hji]
        by_cases hjc : j = child.exprId
        · subst hjc
          rw [getKey_setKey_self]
          exact Or.inr ⟨hec, rfl, List.mem_cons_self _ _, by simp [stackIds]⟩
        · rw [getKey_setKey_ne _ _ _ _ hjc]
          exact Or.inl rfl
    · refine ⟨child, rfl, ?_⟩
      rw [getKey_setKey_self, hE1]

theorem stepPremise_err {pn : Z3Expr} {i : Nat} {st : LoopState}
    {e : ExtractErr} (h : stepPremise pn i st = .error e) :
    e = .argRange ∨ e = .appAssert := by
  unfold stepPremise at h
  rcases harg : pn.arg i with _ | child
  · rw [harg] at h
    exact Or.inl (Except.error.inj h).symm
  rw [harg] at h
  by_cases hv : st.visited.contains child.exprId = true
  · simp only [hv, if_true] at h
    by_cases hk : hasKey st.graph.nodes child.exprId = true
    · simp only [hk, if_true] at h
      exact absurd h (by simp)
    · simp only [if_neg hk] at h
      rcases hmk : mkCexNode child with e1 | nd <;> rw [hmk] at h
      · rw [(Except.error.inj h : e1 = e)] at hmk
        exact Or.inr (mkCexNode_err hmk)
      · exact absurd h (by simp)
  · simp only [hv, if_false, Bool.false_eq_true] at h
    by_cases hk : hasKey st.graph.nodes child.exprId = true
    · simp only [hk, if_true] at h
      exact absurd h (by simp)
    · simp only [if_neg hk] at h
      rcases hmk : mkCexNode child with e1 | nd <;> rw [hmk] at h
      · rw [(Except.error.inj h : e1 = e)] at hmk
        exact Or.inr (mkCexNode_err hmk)
      · exact absurd h (by simp)

theorem processPremises_err (pn : Z3Expr) :
    ∀ r i st e, processPremises pn i r st = .error e →
      e = .argRange ∨ e = .appAssert
  | 0, _, _, _, h => by
    unfold processPremises at h
    exact absurd h (by simp)
  | r' + 1, i, st, e, h => by
    unfold processPremises at h
    rcases hs : stepPremise pn i st with e1 | st1 <;> rw [hs] at h
    · rw [← (Except.error.inj h : e1 = e)]
      exact stepPremise_err hs
    · exact processPremises_err pn r' (i + 1) st1 e h

theorem processPremises_facts (s pn : Z3Expr) (hpn : pn ∈ allSub s) :
    ∀ r i st st', InvA s st → hasKey st.graph.nodes pn.exprId = true →
      r = pn.num_args - 1 - i →
      processPremises pn i r st = .ok st' →
      StepFacts s pn st st' ∧
      (r = 0 ∨ getKey st'.graph.edges pn.exprId =
        some ((getKey st.graph.edges pn.exprId).getD [] ++ premTail pn i))
  | 0, i, st, st', hinv, hnode, _, h => by
    unfold processPremises at h
    simp only [Except.ok.injEq] at h
    subst h
    exact ⟨StepFacts.base hinv hnode, Or.inl rfl⟩
  | r' + 1, i, st, st', hinv, hnode, hr, h => by
    unfold processPremises at h
    rcases hs : stepPremise pn i st with e1 | st1 <;> rw [hs] at h
    · exact absurd h (by simp)
    obtain ⟨SF1, c, harg, hedge1⟩ :=
      stepPremise_facts s pn i st st1 hpn hnode hinv hs
    have hr' : r' = pn.num_args - 1 - (i + 1) := by omega
    obtain ⟨SF2, hedge2⟩ :=
      processPremises_facts s pn hpn r' (i + 1) st1 st' SF1.inv SF1.node hr' h
    refine ⟨SF1.trans SF2, Or.inr ?_⟩
    have hlt : i < pn.num_args - 1 := by omega
    have hcons := premTail_cons harg hlt
    rcases hedge2 with hz | he
    · subst hz
      unfold processPremises at h
      simp only [Except.ok.injEq] at h
      subst h
      have hpt : premTail pn (i + 1) = [] :=
        List.length_eq_zero.mp (by rw [premTail_length]; omega)
      rw [hedge1, hcons, hpt]
    · rw [he, hedge1, hcons]
      simp

theorem StepFacts.stack_mono {s pn : Z3Expr} {st st' : LoopState}
    (h : StepFacts s pn st st') :
    ∀ j, j ∈ stackIds st → j ∈ stackIds st' := by
  intro j hj
  obtain ⟨pushed, hp, _⟩ := h.stack_ext
  simp only [stackIds, hp, List.map_append, List.mem_append]
  exact Or.inr hj

theorem InvA_tail {s pn : Z3Expr} {st : LoopState} {rest : List Z3Expr}
    (hinv : InvA s st) (hst : st.proofStack = pn :: rest) :
    InvA s { st with proofStack := rest } := by
  refine ⟨?_, ?_, hinv.visited_nodes, hinv.edge_vals, hinv.edge_keys, ?_,
    hinv.nodes_nodup⟩
  · intro e he
    exact hinv.stack_sub e (by rw [hst]; exact List.mem_cons_of_mem _ he)
  · intro e he
    exact hinv.stack_visited e (by rw [hst]; exact List.mem_cons_of_mem _ he)
  · have h2 := hinv.stack_nodup
    rw [stackIds, hst, List.map_cons] at h2
    exact (List.nodup_cons.mp h2).2

theorem stepPremise_no_argRange {pn : Z3Expr} {i : Nat} {st : LoopState}
    {c : Z3Expr} (hsome : pn.arg i = some c) :
    stepPremise pn i st ≠ .error .argRange := by
  intro h
  unfold stepPremise at h
  rw [hsome] at h
  by_cases hv : st.visited.contains c.exprId = true
  · simp only [hv, if_true] at h
    by_cases hk : hasKey st.graph.nodes c.exprId = true
    · simp only [hk, if_true] at h
      exact absurd h (by simp)
    · simp only [if_neg hk] at h
      rcases hmk : mkCexNode c with e1 | nd <;> rw [hmk] at h
      · rw [(Except.error.inj h : e1 = ExtractErr.argRange)] at hmk
        exact absurd (mkCexNode_err hmk) (by simp)
      · exact absurd h (by simp)
  · simp only [hv, if_false, Bool.false_eq_true] at h
    by_cases hk : hasKey st.graph.nodes c.exprId = true
    · simp only [hk, if_true] at h
      exact absurd h (by simp)
    · simp only [if_neg hk] at h
      rcases hmk : mkCexNode c with e1 | nd <;> rw [hmk] at h
      · rw [(Except.error.inj h : e1 = ExtractErr.argRange)] at hmk
        exact absurd (mkCexNode_err hmk) (by simp)
      · exact absurd h (by simp)

theorem processPremises_no_argRange (pn : Z3Expr) :
    ∀ r i st, r = pn.num_args - 1 - i →
      processPremises pn i r st ≠ .error .argRange
  | 0, i, st, _ => by
    unfold processPremises
    simp
  | r' + 1, i, st, hr => by
    intro h
    unfold processPremises at h
    have hlt : i < pn.num_args := by omega
    have happ : pn.is_app = true := by
      cases pn with
      | app _ _ _ => rfl
      | leaf _ _ => simp [Z3Expr.num_args] at hlt
    obtain ⟨c, hc⟩ := Z3Expr.arg_isSome_of_lt happ hlt
    rcases hs : stepPremise pn i st with e1 | st1 <;> rw [hs] at h
    · rw [(Except.error.inj h : e1 = ExtractErr.argRange)] at hs
      exact stepPremise_no_argRange hc hs
    · exact processPremises_no_argRange pn r' (i + 1) st1 (by omega) h


theorem cexLoop_nil (fuel : Nat) (st : LoopState) (h : st.proofStack = []) :
    cexLoop fuel st = .ok st.graph := by
  cases fuel <;> (unfold cexLoop; rw [h])

theorem cexLoop_zero (st : LoopState) (pn : Z3Expr) (rest : List Z3Expr)
    (h : st.proofStack = pn :: rest) : cexLoop 0 st = .error .fuelOut := by
  unfold cexLoop
  rw [h]

theorem cexLoop_cons (fuel' : Nat) (st : LoopState) (pn : Z3Expr)
    (rest : List Z3Expr) (h : st.proofStack = pn :: rest) :
    cexLoop (fuel' + 1) st =
      if hasKey st.graph.nodes pn.exprId = true then
        (if isHyper pn = true then
          (if 0 < pn.num_args then
            match processPremises pn 1 (premCount pn)
                { st with proofStack := rest } with
            | .error e => .error e
            | .ok st2 => cexLoop fuel' st2
          else .error .hyperArgsAssert)
        else cexLoop fuel' { st with proofStack := rest })
      else .error .popAssert := by
  conv_lhs => rw [cexLoop.eq_def, h]

theorem cexLoop_runA (s : Z3Expr) :
    ∀ fuel st, InvA s st →
      (∀ g, cexLoop fuel st = .ok g →
        (∀ j l, getKey g.edges j = some l → ∀ v ∈ l, hasKey g.nodes v = true) ∧
        (g.nodes.map Prod.fst).Nodup) ∧
      (cexLoop fuel st ≠ .error .popAssert ∧
        cexLoop fuel st ≠ .error .entryAssert ∧
        cexLoop fuel st ≠ .error .argRange) ∧
      (stMeasure s st ≤ fuel → cexLoop fuel st ≠ .error .fuelOut)
  | fuel, st, hinv => by
    rcases hstack : st.proofStack with _ | ⟨pn, rest⟩
    · rw [cexLoop_nil fuel st hstack]
      exact ⟨fun g hg => (Except.ok.inj hg) ▸ ⟨hinv.edge_vals, hinv.nodes_nodup⟩,
        ⟨by simp, by simp, by simp⟩, fun _ => by simp⟩
    rcases hfq : fuel with _ | fuel'
    · rw [cexLoop_zero st pn rest hstack]
      refine ⟨fun g hg => absurd hg (by simp), ⟨by simp, by simp, by simp⟩, ?_⟩
      intro hm
      exfalso
      have h1 : 1 ≤ stMeasure s st := by
        simp only [stMeasure, hstack, List.length_cons]
        omega
      omega
    have hpn_mem : pn ∈ st.proofStack := by
      rw [hstack]
      exact List.mem_cons_self _ _
    have hk : hasKey st.graph.nodes pn.exprId = true :=
      (hinv.visited_nodes _).1 (hinv.stack_visited pn hpn_mem)
    have hinv1 : InvA s { st with proofStack := rest } := InvA_tail hinv hstack
    have hmeas1 : stMeasure s { st with proofStack := rest } + 1 = stMeasure s st := by
      simp [stMeasure, hstack, Nat.succ_add]
    rw [cexLoop_cons fuel' st pn rest hstack]
    simp only [hk, if_true]
    by_cases hhyp : isHyper pn = true
    · simp only [hhyp, if_true]
      by_cases hargs : 0 < pn.num_args
      · simp only [if_pos hargs]
        rcases hpp : processPremises pn 1 (premCount pn)
            { st with proofStack := rest } with e1 | st2
        · have he1 : e1 = ExtractErr.appAssert := by
            rcases processPremises_err pn _ _ _ _ hpp with h1 | h1
            · subst h1
              exact absurd hpp (processPremises_no_argRange pn _ 1 _
                (by simp only [premCount]; omega))
            · exact h1
          subst he1
          exact ⟨fun g hg => absurd hg (by simp), ⟨by simp, by simp, by simp⟩,
            fun _ => by simp⟩
        · have hrr : premCount pn = pn.num_args - 1 - 1 := by
            simp only [premCount]
            omega
          obtain ⟨SF, _⟩ := processPremises_facts s pn
            (hinv.stack_sub pn hpn_mem) (premCount pn) 1 _ st2 hinv1 hk hrr hpp
          have IH := cexLoop_runA s fuel' st2 SF.inv
          refine ⟨IH.1, IH.2.1, ?_⟩
          intro hm
          exact IH.2.2 (by rw [SF.meas]; omega)
      · simp only [if_neg hargs]
        exact ⟨fun g hg => absurd hg (by simp), ⟨by simp, by simp, by simp⟩,
          fun _ => by simp⟩
    · simp only [hhyp, if_false, Bool.false_eq_true]
      have IH := cexLoop_runA s fuel' { st with proofStack := rest } hinv1
      refine ⟨IH.1, IH.2.1, ?_⟩
      intro hm
      exact IH.2.2 (by omega)
termination_by fuel _ _ => fuel
decreasing_by all_goals omega

/-- The well-formedness-dependent invariant: every non-empty edge list is the
completed premise list of an already-expanded hyper-resolution subterm whose id
is off the stack, and conversely every visited, off-stack hyper-resolution
subterm with premises has its completed edge list recorded. -/
structure InvB (s : Z3Expr) (st : LoopState) : Prop where
  complete : ∀ j l, getKey st.graph.edges j = some l → l ≠ [] →
    ∃ n, n ∈ allSub s ∧ n.exprId = j ∧ isHyper n = true ∧ l = premIds n ∧
      j ∈ st.visited ∧ j ∉ stackIds st
  expanded : ∀ n, n ∈ allSub s → n.exprId ∈ st.visited →
    n.exprId ∉ stackIds st → isHyper n = true → premIds n ≠ [] →
    getKey st.graph.edges n.exprId = some (premIds n)

theorem cexLoop_runB (s : Z3Expr) (hwf : WFProof s) :
    ∀ fuel st g, InvA s st → InvB s st → cexLoop fuel st = .ok g →
      ∀ n, n ∈ allSub s → hasKey g.nodes n.exprId = true →
        isHyper n = true → premIds n ≠ [] →
        getKey g.edges n.exprId = some (premIds n)
  | fuel, st, g, hinvA, hinvB, hok => by
    rcases hstack : st.proofStack with _ | ⟨pn, rest⟩
    · rw [cexLoop_nil fuel st hstack] at hok
      have hg := Except.ok.inj hok
      subst hg
      intro n hsub hkey hhyp hpne
      have hvis : n.exprId ∈ st.visited := (hinvA.visited_nodes _).2 hkey
      have hns : n.exprId ∉ stackIds st := by simp [stackIds, hstack]
      exact hinvB.expanded n hsub hvis hns hhyp hpne
    rcases hfq : fuel with _ | fuel'
    · rw [hfq, cexLoop_zero st pn rest hstack] at hok
      exact absurd hok (by simp)
    rw [hfq, cexLoop_cons fuel' st pn rest hstack] at hok
    have hpn_mem : pn ∈ st.proofStack := by
      rw [hstack]
      exact List.mem_cons_self _ _
    have hpn_sub : pn ∈ allSub s := hinvA.stack_sub pn hpn_mem
    have hpn_vis : pn.exprId ∈ st.visited := hinvA.stack_visited pn hpn_mem
    have hk : hasKey st.graph.nodes pn.exprId = true :=
      (hinvA.visited_nodes _).1 hpn_vis
    have hpn_not_rest : pn.exprId ∉ List.map Z3Expr.exprId rest := by
      have h2 := hinvA.stack_nodup
      rw [stackIds, hstack, List.map_cons] at h2
      exact (List.nodup_cons.mp h2).1
    have hinv1 : InvA s { st with proofStack := rest } := InvA_tail hinvA hstack
    simp only [hk, if_true] at hok
    by_cases hhyp : isHyper pn = true
    · simp only [hhyp, if_true] at hok
      by_cases hargs : 0 < pn.num_args
      · simp only [if_pos hargs] at hok
        rcases hpp : processPremises pn 1 (premCount pn)
            { st with proofStack := rest } with e1 | st2
        · rw [hpp] at hok
          exact absurd hok (by simp)
        rw [hpp] at hok
        have hrr : premCount pn = pn.num_args - 1 - 1 := by
          simp only [premCount]
          omega
        obtain ⟨SF, hedge⟩ := processPremises_facts s pn hpn_sub
          (premCount pn) 1 _ st2 hinv1 hk hrr hpp
        dsimp only [] at hedge
        obtain ⟨pushed, hpE, hpF⟩ := SF.stack_ext
        dsimp only [] at hpE hpF
        have hpn_not_st2 : pn.exprId ∉ stackIds st2 := by
          intro hc
          simp only [stackIds, hpE, List.map_append, List.mem_append] at hc
          rcases hc with hc | hc
          · rcases List.mem_map.mp hc with ⟨e, he, heid⟩
            exact hpF e he (heid ▸ hpn_vis)
          · exact hpn_not_rest hc
        have hold : (getKey st.graph.edges pn.exprId).getD [] = [] := by
          rcases he : getKey st.graph.edges pn.exprId with _ | l0
          · rfl
          · rcases l0 with _ | ⟨x, xs⟩
            · rfl
            · obtain ⟨n0, _, _, _, _, _, hns⟩ := hinvB.complete _ _ he (by simp)
              exact absurd (show pn.exprId ∈ stackIds st by
                simp [stackIds, hstack]) hns
        have hpn_edge : premIds pn ≠ [] →
            getKey st2.graph.edges pn.exprId = some (premIds pn) := by
          intro hne
          rcases hedge with hz | he
          · exfalso
            apply hne
            have hlen := premIds_length pn
            refine List.length_eq_zero.mp ?_
            rw [hlen]
            simp only [premCount] at hz
            omega
          · rw [he, premTail_one, hold]
            simp
        have hinvB2 : InvB s st2 := by
          constructor
          · intro j l hjl hlne
            by_cases hji : j = pn.exprId
            · subst hji
              rcases hedge with hz | he
              · have hst2 : st2 = { st with proofStack := rest } := by
                  rw [hz] at hpp
                  unfold processPremises at hpp
                  exact (Except.ok.inj hpp).symm
                rw [hst2] at hjl
                dsimp only [] at hjl
                obtain ⟨n0, _, _, _, _, _, hns⟩ := hinvB.complete _ _ hjl hlne
                exact absurd (show pn.exprId ∈ stackIds st by
                  simp [stackIds, hstack]) hns
              · have hl : l = premIds pn := by
                  rw [he, hold, premTail_one] at hjl
                  simpa using hjl.symm
                exact ⟨pn, hpn_sub, rfl, hhyp, hl,
                  SF.vis_mono _ hpn_vis, hpn_not_st2⟩
            · rcases SF.edge_other j hji with heq | ⟨hnone, hsome, hjv, hjs⟩
              · dsimp only [] at heq
                rw [heq] at hjl
                obtain ⟨n0, h1, h2, h3, h4, h5, h6⟩ :=
                  hinvB.complete _ _ hjl hlne
                refine ⟨n0, h1, h2, h3, h4, SF.vis_mono _ h5, ?_⟩
                intro hc
                simp only [stackIds, hpE, List.map_append, List.mem_append] at hc
                rcases hc with hc | hc
                · rcases List.mem_map.mp hc with ⟨e, he2, heid⟩
                  exact hpF e he2 (heid ▸ h5)
                · apply h6
                  simp only [stackIds, hstack, List.map_cons, List.mem_cons]
                  exact Or.inr hc
              · rw [hsome] at hjl
                exact absurd (Option.some.inj hjl).symm hlne
          · intro n hsub hvis2 hns2 hhyp2 hpne2
            by_cases hji : n.exprId = pn.exprId
            · have hn_eq : n = pn := hwf n hsub pn hpn_sub hji
              subst hn_eq
              exact hpn_edge hpne2
            · have hvis_st : n.exprId ∈ st.visited := by
                rcases SF.vis_new _ hvis2 with h1 | h1
                · exact h1
                · exact absurd h1 hns2
              have hns_st : n.exprId ∉ stackIds st := by
                intro hc
                simp only [stackIds, hstack, List.map_cons, List.mem_cons] at hc
                rcases hc with hc | hc
                · exact hji hc
                · apply hns2
                  apply SF.stack_mono
                  simpa [stackIds] using hc
              have hE := hinvB.expanded n hsub hvis_st hns_st hhyp2 hpne2
              rcases SF.edge_other n.exprId hji with heq | ⟨hnone, _, _, _⟩
              · dsimp only [] at heq
                rw [heq]
                exact hE
              · dsimp only [] at hnone
                rw [hE] at hnone
                exact absurd hnone (by simp)
        exact cexLoop_runB s hwf fuel' st2 g SF.inv hinvB2 hok
      · simp only [if_neg hargs] at hok
        exact absurd hok (by simp)
    · simp only [hhyp, if_false, Bool.false_eq_true] at hok
      have hinvB1 : InvB s { st with proofStack := rest } := by
        constructor
        · intro j l hjl hlne
          dsimp only [] at hjl
          obtain ⟨n0, h1, h2, h3, h4, h5, h6⟩ := hinvB.complete j l hjl hlne
          refine ⟨n0, h1, h2, h3, h4, h5, ?_⟩
          intro hc
          apply h6
          simp only [stackIds, hstack, List.map_cons, List.mem_cons]
          exact Or.inr (by simpa [stackIds] using hc)
        · intro n hsub hvis hns hhyp2 hpne2
          by_cases hji : n.exprId = pn.exprId
          · have hn_eq : n = pn := hwf n hsub pn hpn_sub hji
            rw [hn_eq] at hhyp2
            exact absurd hhyp2 hhyp
          · have hns_st : n.exprId ∉ stackIds st := by
              intro hc
              simp only [stackIds, hstack, List.map_cons, List.mem_cons] at hc
              rcases hc with hc | hc
              · exact hji hc
              · exact hns (by simpa [stackIds] using hc)
            exact hinvB.expanded n hsub hvis hns_st hhyp2 hpne2
      exact cexLoop_runB s hwf fuel' _ g (InvA_tail hinvA hstack) hinvB1 hok
termination_by fuel _ _ => fuel
decreasing_by all_goals omega

theorem InvA_init (root : Z3Expr) (nd : String × List String) :
    InvA root
      { proofStack := [root], visited := [root.exprId],
        graph := { nodes := setKey [] root.exprId nd, edges := [] } } := by
  refine ⟨?_, ?_, ?_, ?_, ?_, ?_, ?_⟩
  · intro e he
    rcases List.mem_singleton.mp he with rfl
    exact mem_allSub_self e
  · intro e he
    rcases List.mem_singleton.mp he with rfl
    exact List.mem_singleton.mpr rfl
  · intro j
    rw [List.mem_singleton, hasKey_setKey_iff]
    simp [hasKey, getKey]
  · intro j l hj
    simp [getKey] at hj
  · intro j l hj
    simp [getKey] at hj
  · simp [stackIds]
  · simp [setKey]

theorem InvB_init (root : Z3Expr) (nd : String × List String) :
    InvB root
      { proofStack := [root], visited := [root.exprId],
        graph := { nodes := setKey [] root.exprId nd, edges := [] } } := by
  constructor
  · intro j l hj
    simp [getKey] at hj
  · intro n _ hvis hns _ _
    exfalso
    apply hns
    rcases List.mem_singleton.mp hvis with h
    simpa [stackIds] using h

theorem stMeasure_init (root : Z3Expr) (nd : String × List String) :
    stMeasure root
      { proofStack := [root], visited := [root.exprId],
        graph := { nodes := setKey [] root.exprId nd, edges := [] } } ≤
      root.size + 1 := by
  simp only [stMeasure, List.length_singleton]
  have h1 : (subIds root \ [root.exprId].toFinset).card ≤ (subIds root).card :=
    Finset.card_le_card (Finset.sdiff_subset)
  have h2 := card_subIds_le_size root
  omega

theorem fact_isSome_of_app {pf : Z3Expr} (happ : pf.is_app = true) :
    ∃ f, Z3CHCInterface.fact pf = some f := by
  cases pf with
  | app eid d args =>
    unfold Z3CHCInterface.fact
    rcases args with _ | ⟨a, as0⟩
    · refine ⟨Z3Expr.app eid d [], ?_⟩
      simp [Z3Expr.is_app, Z3Expr.num_args]
    · have hlt : (a :: as0).length - 1 < (a :: as0).length := by
        simp
      refine ⟨(a :: as0)[(a :: as0).length - 1], ?_⟩
      simp only [Z3Expr.is_app, if_true, Z3Expr.num_args, Z3Expr.arg]
      rw [if_neg (by simp)]
      exact List.getElem?_eq_getElem hlt
  | leaf eid t => simp [Z3Expr.is_app] at happ

theorem cexGraph_ok_elim {pf : Z3Expr} {g : CexGraph}
    (h : cexGraph pf = .ok g) :
    ∃ root nd, pf.arg 0 = some root ∧ mkCexNode root = .ok nd ∧
      cexLoop (root.size + 1)
        { proofStack := [root], visited := [root.exprId],
          graph := { nodes := setKey [] root.exprId nd, edges := [] } } =
        .ok g := by
  unfold cexGraph at h
  split at h
  · split at h
    · exact absurd h (by simp)
    · split at h
      · exact absurd h (by simp)
      · split at h
        · split at h
          · exact absurd h (by simp)
          · split at h
            · exact absurd h (by simp)
            · exact ⟨_, _, by assumption, by assumption, h⟩
        · exact absurd h (by simp)
  · exact absurd h (by simp)

theorem cexGraph_err_elim {pf : Z3Expr} {e : ExtractErr}
    (h : cexGraph pf = .error e) :
    (e = .entryAssert ∧
      ¬(pf.is_app = true ∧ ∃ f d, Z3CHCInterface.fact pf = some f ∧
        f.declOf = some d ∧ d.kind = Z3DeclKind.opFalse) ∧
      ¬(pf.is_app = true ∧ ∃ f, Z3CHCInterface.fact pf = some f ∧
        f.declOf = none)) ∨
    (e = .declError ∧ pf.is_app = true ∧ ∃ f,
      Z3CHCInterface.fact pf = some f ∧ f.declOf = none) ∨
    e = .appAssert ∨
    (e = .argRange ∧ pf.arg 0 = none) ∨
    (∃ root nd, pf.arg 0 = some root ∧ mkCexNode root = .ok nd ∧
      cexLoop (root.size + 1)
        { proofStack := [root], visited := [root.exprId],
          graph := { nodes := setKey [] root.exprId nd, edges := [] } } =
        .error e) := by
  unfold cexGraph at h
  split at h
  · split at h
    · rename_i happ hfnone
      refine Or.inl ⟨(Except.error.inj h).symm, ?_, ?_⟩
      · rintro ⟨_, f, d, hf, _, _⟩
        rw [hfnone] at hf
        exact absurd hf (by simp)
      · rintro ⟨_, f, hf, _⟩
        rw [hfnone] at hf
        exact absurd hf (by simp)
    · split at h
      · rename_i hfact hscrut hdnone
        exact Or.inr (Or.inl ⟨(Except.error.inj h).symm, by assumption,
          ⟨_, hfact, hdnone⟩⟩)
      · split at h
        · split at h
          · rename_i harg
            exact Or.inr (Or.inr (Or.inr (Or.inl
              ⟨(Except.error.inj h).symm, harg⟩)))
          · split at h
            · rename_i e1 hmk
              have he1 : e1 = ExtractErr.appAssert := mkCexNode_err hmk
              subst he1
              exact Or.inr (Or.inr (Or.inl (Except.error.inj h).symm))
            · exact Or.inr (Or.inr (Or.inr (Or.inr
                ⟨_, _, by assumption, by assumption, h⟩)))
        · rename_i hfact hscrut d hdecl hkind
          refine Or.inl ⟨(Except.error.inj h).symm, ?_, ?_⟩
          · rintro ⟨_, f2, d2, hf2, hd2, hk2⟩
            rw [hfact] at hf2
            obtain rfl := Option.some.inj hf2
            rw [hdecl] at hd2
            obtain rfl := Option.some.inj hd2
            exact hkind hk2
          · rintro ⟨_, f2, hf2, hd2⟩
            rw [hfact] at hf2
            obtain rfl := Option.some.inj hf2
            rw [hdecl] at hd2
            exact absurd hd2 (by simp)
  · rename_i hnapp
    refine Or.inl ⟨(Except.error.inj h).symm, ?_, ?_⟩
    · rintro ⟨ha, _⟩
      exact hnapp ha
    · rintro ⟨ha, _⟩
      exact hnapp ha

theorem cexGraph_no_fuelOut (pf : Z3Expr) : cexGraph pf ≠ .error .fuelOut := by
  intro h
  rcases cexGraph_err_elim h with ⟨h1, _, _⟩ | ⟨h1, _⟩ | h1 | ⟨h1, _⟩ |
    ⟨root, nd, harg, hmk, hloop⟩
  · exact absurd h1 (by simp)
  · exact absurd h1 (by simp)
  · exact absurd h1 (by simp)
  · exact absurd h1 (by simp)
  · exact (cexLoop_runA root _ _ (InvA_init root nd)).2.2
      (stMeasure_init root nd) hloop

theorem cexGraph_entry_of_not (pf : Z3Expr)
    (hnp : ¬(pf.is_app = true ∧ ∃ f d, Z3CHCInterface.fact pf = some f ∧
      f.declOf = some d ∧ d.kind = Z3DeclKind.opFalse))
    (hne : ¬(pf.is_app = true ∧ ∃ f, Z3CHCInterface.fact pf = some f ∧
      f.declOf = none)) :
    cexGraph pf = .error .entryAssert := by
  by_cases happ : pf.is_app = true
  · obtain ⟨f, hf⟩ := fact_isSome_of_app happ
    rcases hd : f.declOf with _ | d
    · exact absurd ⟨happ, f, hf, hd⟩ hne
    · have hkind : ¬(d.kind = Z3DeclKind.opFalse) := fun hk =>
        hnp ⟨happ, f, d, hf, hd, hk⟩
      unfold cexGraph
      simp only [happ, eq_self_iff_true, if_true, hf, hd]
      rw [if_neg hkind]
  · unfold cexGraph
    rw [if_neg happ]

theorem cexGraph_declError_of (pf f : Z3Expr)
    (happ : pf.is_app = true) (hf : Z3CHCInterface.fact pf = some f)
    (hd : f.declOf = none) :
    cexGraph pf = .error .declError := by
  unfold cexGraph
  simp only [happ, eq_self_iff_true, if_true, hf, hd]

theorem cexLoop_no_declError : ∀ fuel st, cexLoop fuel st ≠ .error .declError
  | fuel, st => by
    intro h
    rcases hstack : st.proofStack with _ | ⟨pn, rest⟩
    · rw [cexLoop_nil fuel st hstack] at h
      exact absurd h (by simp)
    rcases hfq : fuel with _ | fuel'
    · rw [hfq, cexLoop_zero st pn rest hstack] at h
      exact absurd h (by simp)
    rw [hfq, cexLoop_cons fuel' st pn rest hstack] at h
    by_cases hk : hasKey st.graph.nodes pn.exprId = true
    · simp only [hk, if_true] at h
      by_cases hhyp : isHyper pn = true
      · simp only [hhyp, if_true] at h
        by_cases hargs : 0 < pn.num_args
        · simp only [if_pos hargs] at h
          rcases hpp : processPremises pn 1 (premCount pn)
              { st with proofStack := rest } with e1 | st2 <;> rw [hpp] at h
          · rcases processPremises_err pn _ _ _ _ hpp with h1 | h1 <;>
              (subst h1; exact absurd h (by simp))
          · exact cexLoop_no_declError fuel' st2 h
        · simp only [if_neg hargs] at h
          exact absurd h (by simp)
      · simp only [hhyp, if_false, Bool.false_eq_true] at h
        exact cexLoop_no_declError fuel' _ h
    · rw [if_neg hk] at h
      exact absurd h (by simp)
termination_by fuel _ => fuel
decreasing_by all_goals omega

theorem stepPremise_append (pn : Z3Expr) (i : Nat) (st st' : LoopState)
    (hnode : hasKey st.graph.nodes pn.exprId = true)
    (h : stepPremise pn i st = .ok st') :
    hasKey st'.graph.nodes pn.exprId = true ∧
    ∃ c, pn.arg i = some c ∧
      getKey st'.graph.edges pn.exprId =
        some ((getKey st.graph.edges pn.exprId).getD [] ++ [c.exprId]) := by
  unfold stepPremise at h
  rcases harg : pn.arg i with _ | child
  · rw [harg] at h
    exact absurd h (by simp)
  rw [harg] at h
  by_cases hv : st.visited.contains child.exprId = true
  · simp only [hv, if_true] at h
    by_cases hk : hasKey st.graph.nodes child.exprId = true
    · simp only [hk, if_true] at h
      simp only [Except.ok.injEq] at h
      subst h
      exact ⟨hnode, child, rfl, getKey_setKey_self _ _ _⟩
    · simp only [if_neg hk] at h
      rcases hmk : mkCexNode child with e1 | nd <;> rw [hmk] at h
      · exact absurd h (by simp)
      · simp only [Except.ok.injEq] at h
        subst h
        have hne : pn.exprId ≠ child.exprId := by
          intro hc
          rw [hc] at hnode
          exact hk hnode
        refine ⟨(hasKey_setKey_iff _ _ _ _).2 (Or.inr hnode), child, rfl, ?_⟩
        rw [getKey_setKey_self, getKey_setKey_ne _ _ _ _ hne]
  · simp only [hv, if_false, Bool.false_eq_true] at h
    by_cases hk : hasKey st.graph.nodes child.exprId = true
    · simp only [hk, if_true] at h
      simp only [Except.ok.injEq] at h
      subst h
      exact ⟨hnode, child, rfl, getKey_setKey_self _ _ _⟩
    · simp only [if_neg hk] at h
      rcases hmk : mkCexNode child with e1 | nd <;> rw [hmk] at h
      · exact absurd h (by simp)
      · simp only [Except.ok.injEq] at h
        subst h
        have hne : pn.exprId ≠ child.exprId := by
          intro hc
          rw [hc] at hnode
          exact hk hnode
        refine ⟨(hasKey_setKey_iff _ _ _ _).2 (Or.inr hnode), child, rfl, ?_⟩
        rw [getKey_setKey_self, getKey_setKey_ne _ _ _ _ hne]

theorem processPremises_append (pn : Z3Expr) :
    ∀ r i st st', r = pn.num_args - 1 - i →
      hasKey st.graph.nodes pn.exprId = true →
      processPremises pn i r st = .ok st' →
      (r = 0 → st' = st) ∧
      (r ≠ 0 → getKey st'.graph.edges pn.exprId =
        some ((getKey st.graph.edges pn.exprId).getD [] ++ premTail pn i))
  | 0, i, st, st', _, _, h => by
    unfold processPremises at h
    simp only [Except.ok.injEq] at h
    subst h
    exact ⟨fun _ => rfl, fun hz => absurd rfl hz⟩
  | r' + 1, i, st, st', hr, hnode, h => by
    unfold processPremises at h
    rcases hs : stepPremise pn i st with e1 | st1 <;> rw [hs] at h
    · exact absurd h (by simp)
    obtain ⟨hnode1, c, harg, hedge1⟩ := stepPremise_append pn i st st1 hnode hs
    have hr' : r' = pn.num_args - 1 - (i + 1) := by omega
    obtain ⟨hz0, hzs⟩ :=
      processPremises_append pn r' (i + 1) st1 st' hr' hnode1 h
    refine ⟨fun hc => absurd hc (by simp), fun _ => ?_⟩
    have hlt : i < pn.num_args - 1 := by omega
    have hcons := premTail_cons harg hlt
    rcases Nat.eq_zero_or_pos r' with hz | hpos
    · have hst : st' = st1 := hz0 hz
      subst hst
      have hpt : premTail pn (i + 1) = [] :=
        List.length_eq_zero.mp (by rw [premTail_length]; omega)
      rw [hedge1, hcons, hpt]
    · rw [hzs (by omega), hedge1, hcons]
      simp

instance {ε α : Type} [DecidableEq ε] [DecidableEq α] :
    DecidableEq (Except ε α) := fun a b =>
  match a, b with
  | .ok x, .ok y => decidable_of_iff (x = y) (by simp)
  | .error x, .error y => decidable_of_iff (x = y) (by simp)
  | .ok _, .error _ => isFalse (by simp)
  | .error _, .ok _ => isFalse (by simp)

/-! Concrete proof objects used by the witnesses. -/

/-- The boolean constant false, `(false, id 1)`. -/
def falseW : Z3Expr := .app 1 ⟨.opFalse, "false"⟩ []

/-- A leaf fact `R`. -/
def premW1 : Z3Expr := .app 3 ⟨.opOther "u", "R"⟩ []

/-- The conclusion `query` of the single hyper-resolution step. -/
def conclW1 : Z3Expr := .app 4 ⟨.opOther "u", "query"⟩ []

/-- A hyper-resolution step `[justification, R, query]`. -/
def hyperW1 : Z3Expr :=
  .app 2 ⟨.opPrHyperResolve, "hyper-res"⟩ [.leaf 9 "j", premW1, conclW1]

/-- A linear refutation proof: root with child `hyperW1` and fact false. -/
def pfW1 : Z3Expr := .app 5 ⟨.opOther "asserted", "mp"⟩ [hyperW1, falseW]

/-- The graph extracted from `pfW1`. -/
def gW1 : CexGraph :=
  { nodes := [(2, ("query", [])), (3, ("R", []))], edges := [(3, []), (2, [3])] }

/-- The shared premise `P` (id 6) of the nonlinear example. -/
def pNode : Z3Expr := .app 6 ⟨.opOther "u", "P"⟩ []

/-- Conclusion of parent `A`. -/
def conclA : Z3Expr := .app 11 ⟨.opOther "u", "RA"⟩ []

/-- Parent `A` (id 10): hyper-resolution step referencing `P` once. -/
def nodeA : Z3Expr :=
  .app 10 ⟨.opPrHyperResolve, "hyper-res"⟩ [.leaf 90 "j", pNode, conclA]

/-- Conclusion of parent `B`. -/
def conclB : Z3Expr := .app 21 ⟨.opOther "u", "RB"⟩ []

/-- Parent `B` (id 20): a second hyper-resolution step referencing `P` once. -/
def nodeB : Z3Expr :=
  .app 20 ⟨.opPrHyperResolve, "hyper-res"⟩ [.leaf 91 "j", pNode, conclB]

/-- Conclusion of the seed step. -/
def conclS : Z3Expr := .app 31 ⟨.opOther "u", "query"⟩ []

/-- The seed (id 30): a hyper-resolution step with premises `A` and `B`,
which share the premise `P` — a proof DAG, not a tree. -/
def seedW2 : Z3Expr :=
  .app 30 ⟨.opPrHyperResolve, "hyper-res"⟩ [.leaf 92 "j", nodeA, nodeB, conclS]

/-- A nonlinear refutation proof whose two parents share premise `P`. -/
def pfW2 : Z3Expr := .app 40 ⟨.opOther "asserted", "mp"⟩ [seedW2, falseW]

/-- The graph extracted from `pfW2`: one node entry for the shared premise
(id 6), one edge into it from each parent. -/
def gW2 : CexGraph :=
  { nodes := [(30, ("query", [])), (10, ("RA", [])), (20, ("RB", [])),
              (6, ("P", []))],
    edges := [(10, [6]), (30, [10, 20]), (20, [6]), (6, [])] }

/-- A loop state about to process the premises of `nodeA`. -/
def stW7 : LoopState :=
  { proofStack := [], visited := [10],
    graph := { nodes := [(10, ("q", []))], edges := [] } }

/-- The state after processing the premises of `nodeA` from `stW7`. -/
def stW7' : LoopState :=
  { proofStack := [pNode], visited := [6, 10],
    graph := { nodes := [(10, ("q", [])), (6, ("P", []))],
               edges := [(6, []), (10, [6])] } }

/-- A zero-argument application whose declaration is the false constant: it
passes both entry checks of `cexGraph` yet has no argument 0. -/
def falseOnly : Z3Expr := .app 0 ⟨.opFalse, "false"⟩ []

/-- Engine oracle answering `unsat`. -/
def engineUnsat : Z3Expr → EngineResponse := fun _ => .unsat

/-- Engine oracle answering `unknown`. -/
def engineUnknown : Z3Expr → EngineResponse := fun _ => .unknown

/-- Engine oracle raising an internal exception. -/
def engineExn : Z3Expr → EngineResponse := fun _ => .engineError

/-- C1: for every proof whose extraction completes, every node id appearing in
any edge list of `graph.edges` is a key of `graph.nodes` (no dangling
edges). -/
theorem cexGraph_no_dangling_edges (pf : Z3Expr) (g : CexGraph)
    (h : cexGraph pf = .ok g) :
    ∀ j l, getKey g.edges j = some l → ∀ v ∈ l, hasKey g.nodes v = true := by
  obtain ⟨root, nd, harg, hmk, hloop⟩ := cexGraph_ok_elim h
  exact ((cexLoop_runA root _ _ (InvA_init root nd)).1 g hloop).1

theorem cexGraph_no_dangling_edges_w : hasKey gW1.nodes 3 = true :=
  cexGraph_no_dangling_edges pfW1 gW1 (by decide) 2 [3] (by decide) 3 (by decide)

/-- C2: in a well-formed proof DAG, when two distinct expanded
hyper-resolution parents `A` and `B` both reference the premise with id `P`
(each once), the extracted graph has exactly one node-map entry for `P` and
exactly one edge into `P` from each of the two parents. -/
theorem cexGraph_shared_premise_unique (pf s A B : Z3Expr) (P : Nat)
    (g : CexGraph)
    (hseed : pf.arg 0 = some s) (hwf : WFProof s)
    (hok : cexGraph pf = .ok g)
    (hA : A ∈ allSub s) (hB : B ∈ allSub s)
    (hAn : hasKey g.nodes A.exprId = true)
    (hBn : hasKey g.nodes B.exprId = true)
    (hABne : A.exprId ≠ B.exprId)
    (hAh : isHyper A = true) (hBh : isHyper B = true)
    (hPA : (premIds A).count P = 1) (hPB : (premIds B).count P = 1) :
    (g.nodes.map Prod.fst).count P = 1 ∧
    (∃ la, getKey g.edges A.exprId = some la ∧ la.count P = 1) ∧
    (∃ lb, getKey g.edges B.exprId = some lb ∧ lb.count P = 1) := by
  obtain ⟨root, nd, harg, hmk, hloop⟩ := cexGraph_ok_elim hok
  have hroot : root = s := by
    rw [harg] at hseed
    exact Option.some.inj hseed
  subst hroot
  have hmemA : P ∈ premIds A := by
    by_contra hc
    rw [List.count_eq_zero_of_not_mem hc] at hPA
    exact absurd hPA (by simp)
  have hApre : premIds A ≠ [] := List.ne_nil_of_mem hmemA
  have hBpre : premIds B ≠ [] := by
    have hmemB : P ∈ premIds B := by
      by_contra hc
      rw [List.count_eq_zero_of_not_mem hc] at hPB
      exact absurd hPB (by simp)
    exact List.ne_nil_of_mem hmemB
  have hEA := cexLoop_runB root hwf _ _ g (InvA_init root nd)
    (InvB_init root nd) hloop A hA hAn hAh hApre
  have hEB := cexLoop_runB root hwf _ _ g (InvA_init root nd)
    (InvB_init root nd) hloop B hB hBn hBh hBpre
  have hrunA := (cexLoop_runA root _ _ (InvA_init root nd)).1 g hloop
  have hPnode : hasKey g.nodes P = true :=
    hrunA.1 A.exprId (premIds A) hEA P hmemA
  exact ⟨count_keys_eq_one g.nodes P hrunA.2 hPnode,
    ⟨premIds A, hEA, hPA⟩, ⟨premIds B, hEB, hPB⟩⟩

theorem cexGraph_shared_premise_unique_w :
    (gW2.nodes.map Prod.fst).count 6 = 1 ∧
    (∃ la, getKey gW2.edges nodeA.exprId = some la ∧ la.count 6 = 1) ∧
    (∃ lb, getKey gW2.edges nodeB.exprId = some lb ∧ lb.count 6 = 1) :=
  cexGraph_shared_premise_unique pfW2 seedW2 nodeA nodeB 6 gW2
    (by decide) (by decide) (by decide) (by decide) (by decide)
    (by decide) (by decide) (by decide) (by decide) (by decide)
    (by decide) (by decide)

/-- C3: `query` maps the engine verdict `unreachable` to
`(UNSATISFIABLE, empty graph)`, `indeterminate` to `(UNKNOWN, empty graph)`,
and an engine-level exception raised during translation or during query
execution is caught at the query boundary, giving `(ERROR, empty graph)` with
no partial nodes retained. -/
theorem query_outcome_map (engine : Z3Expr → EngineResponse) (goal : Z3Expr) :
    query .raised engine = .done .ERROR CexGraph.empty ∧
    (engine goal = .unsat →
      query (.ok goal) engine = .done .UNSATISFIABLE CexGraph.empty) ∧
    (engine goal = .unknown →
      query (.ok goal) engine = .done .UNKNOWN CexGraph.empty) ∧
    (engine goal = .engineError →
      query (.ok goal) engine = .done .ERROR CexGraph.empty) := by
  refine ⟨rfl, ?_, ?_, ?_⟩ <;> intro h <;> simp only [query, h]

theorem query_outcome_map_w :
    query (.ok falseW) engineUnsat = .done .UNSATISFIABLE CexGraph.empty ∧
    query (.ok falseW) engineUnknown = .done .UNKNOWN CexGraph.empty ∧
    query (.ok falseW) engineExn = .done .ERROR CexGraph.empty ∧
    query .raised engineUnsat = .done .ERROR CexGraph.empty :=
  ⟨(query_outcome_map engineUnsat falseW).2.1 rfl,
   (query_outcome_map engineUnknown falseW).2.2.1 rfl,
   (query_outcome_map engineExn falseW).2.2.2 rfl,
   (query_outcome_map engineUnsat falseW).1⟩

/-- A root that is an application whose fact (its last argument) is a
non-application term: both entry checks are reached, but `decl()` on the
non-application fact raises a `z3::exception` rather than failing an
`smtAssert`. -/
def pfBadFact : Z3Expr := .app 50 ⟨.opOther "mp", "mp"⟩ [Z3Expr.leaf 51 "v"]

/-- Engine oracle reporting reachable, answering with `pfBadFact` as the
refutation proof. -/
def engineSatBad : Z3Expr → EngineResponse := fun _ => .sat pfBadFact

/-- C4 (counterexample): at `pfBadFact` — an application root whose fact is
not the boolean constant false (it is not even an application) — extraction
does not abort with the fatal entry contract violation as the claim states:
it raises the z3-level `decl()` error, which the query boundary catches and
downgrades to `(ERROR, empty graph)` instead of propagating an assertion
failure. -/
theorem cexGraph_entry_check_cex :
    pfBadFact.is_app = true ∧
    Z3CHCInterface.fact pfBadFact = some (Z3Expr.leaf 51 "v") ∧
    (Z3Expr.leaf 51 "v").is_app = false ∧
    cexGraph pfBadFact ≠ .error .entryAssert ∧
    cexGraph pfBadFact = .error .declError ∧
    query (.ok falseW) engineSatBad = .done .ERROR CexGraph.empty :=
  ⟨rfl, by decide, rfl, by decide, by decide, by decide⟩

/-- C4 (amended): extraction proceeds past its entry checks if and only if
the root is an application term and fact(root) is an application whose
declaration is the boolean constant false.  Otherwise it aborts before any
graph node is produced — with the fatal entry contract violation (assertion
failure) when the root is not an application or fact(root) is an application
of a different declaration, but with a z3-level exception (caught at the
query boundary and downgraded to ERROR) when fact(root) is not an
application. -/
theorem cexGraph_entry_check_amended (pf : Z3Expr) :
    (cexGraph pf = .error .declError ↔
      (pf.is_app = true ∧ ∃ f, Z3CHCInterface.fact pf = some f ∧
        f.declOf = none)) ∧
    (cexGraph pf = .error .entryAssert ↔
      (¬(pf.is_app = true ∧ ∃ f d, Z3CHCInterface.fact pf = some f ∧
          f.declOf = some d ∧ d.kind = Z3DeclKind.opFalse) ∧
       ¬(pf.is_app = true ∧ ∃ f, Z3CHCInterface.fact pf = some f ∧
          f.declOf = none))) := by
  constructor
  · constructor
    · intro h
      rcases cexGraph_err_elim h with ⟨h1, _, _⟩ | ⟨_, hE⟩ | h1 | ⟨h1, _⟩ |
        ⟨root, nd, _, _, hloop⟩
      · exact absurd h1 (by simp)
      · exact hE
      · exact absurd h1 (by simp)
      · exact absurd h1 (by simp)
      · exact absurd hloop (cexLoop_no_declError _ _)
    · rintro ⟨happ, f, hf, hd⟩
      exact cexGraph_declError_of pf f happ hf hd
  · constructor
    · intro h
      rcases cexGraph_err_elim h with ⟨_, hn1, hn2⟩ | ⟨h1, _⟩ | h1 | ⟨h1, _⟩ |
        ⟨root, nd, _, _, hloop⟩
      · exact ⟨hn1, hn2⟩
      · exact absurd h1 (by simp)
      · exact absurd h1 (by simp)
      · exact absurd h1 (by simp)
      · exact absurd hloop
          ((cexLoop_runA root _ _ (InvA_init root nd)).2.1.2.1)
    · rintro ⟨hn1, hn2⟩
      exact cexGraph_entry_of_not pf hn1 hn2

/-- C5: `addRule` wraps the translated rule in a universal quantifier over
exactly the registry's constants captured at call time when there are any,
and adds it unquantified when there are none; either way it is added to the
solver under the given symbol name. -/
theorem addRule_quantification (constants : List (String × Z3Expr))
    (solverRules : List (Z3RuleExpr × String)) (rule : Z3Expr) (nm : String) :
    (constants ≠ [] →
      addRule constants solverRules rule nm =
        solverRules ++ [(.forallQ (constants.map Prod.snd) rule, nm)]) ∧
    (constants = [] →
      addRule constants solverRules rule nm =
        solverRules ++ [(.base rule, nm)]) := by
  constructor
  · intro h
    have he : constants.isEmpty = false := by
      cases constants
      · exact absurd rfl h
      · rfl
    unfold addRule
    rw [he]
    simp
  · intro h
    subst h
    rfl

theorem addRule_quantification_w :
    addRule [("x", Z3Expr.leaf 7 "x")] [] falseW "r1" =
      [(.forallQ [Z3Expr.leaf 7 "x"] falseW, "r1")] ∧
    addRule [] [] falseW "r2" = [(.base falseW, "r2")] := by
  constructor
  · have h := (addRule_quantification [("x", Z3Expr.leaf 7 "x")] [] falseW
      "r1").1 (by simp)
    simpa using h
  · exact (addRule_quantification [] [] falseW "r2").2 rfl

/-- C6: for a proof whose root is an application with the false fact, the
extraction loop terminates: the fuelled loop never exhausts its fuel of one
unit per iteration plus the number of proof nodes, because each id is pushed
at most once (guarded by the visited set). -/
theorem cexGraph_extraction_terminates (pf : Z3Expr)
    (happ : pf.is_app = true)
    (hfalse : ∃ f d, Z3CHCInterface.fact pf = some f ∧
      f.declOf = some d ∧ d.kind = Z3DeclKind.opFalse) :
    cexGraph pf ≠ .error .fuelOut :=
  cexGraph_no_fuelOut pf

theorem cexGraph_extraction_terminates_w :
    cexGraph pfW1 ≠ .error .fuelOut :=
  cexGraph_extraction_terminates pfW1 (by decide)
    ⟨falseW, ⟨Z3DeclKind.opFalse, "false"⟩, by decide, rfl, rfl⟩

/-- C7: processing the premises of a popped hyper-resolution node with `k`
arguments appends, to that node's edge list, exactly the ids of the arguments
at positions `1 .. k-2` (excluding the justification at 0 and the conclusion
at `k-1`), unconditionally and in ascending argument-position order. -/
theorem premise_edge_order (pn : Z3Expr) (st st' : LoopState)
    (hhyp : isHyper pn = true) (hargs : 0 < pn.num_args)
    (hnode : hasKey st.graph.nodes pn.exprId = true)
    (h : processPremises pn 1 (premCount pn) st = .ok st') :
    (premCount pn = 0 → st' = st) ∧
    (premCount pn ≠ 0 → getKey st'.graph.edges pn.exprId =
      some ((getKey st.graph.edges pn.exprId).getD [] ++
        ((pn.argList.drop 1).dropLast.map Z3Expr.exprId))) := by
  have hrr : premCount pn = pn.num_args - 1 - 1 := by
    simp only [premCount]
    omega
  obtain ⟨h0, hs⟩ := processPremises_append pn (premCount pn) 1 st st' hrr
    hnode h
  refine ⟨h0, fun hz => ?_⟩
  have := hs hz
  rw [premTail_one] at this
  exact this

theorem premise_edge_order_w :
    getKey stW7'.graph.edges nodeA.exprId =
      some ((getKey stW7.graph.edges nodeA.exprId).getD [] ++
        ((nodeA.argList.drop 1).dropLast.map Z3Expr.exprId)) :=
  (premise_edge_order nodeA stW7 stW7' (by decide) (by decide) (by decide)
    (by decide)).2 (by decide)

/-- C8: for an application, `fact` returns the node itself when it has zero
arguments, and its last argument when it has one or more. -/
theorem fact_last_argument (i : Nat) (d : FuncDecl) (args : List Z3Expr) :
    (args = [] →
      Z3CHCInterface.fact (Z3Expr.app i d args) =
        some (Z3Expr.app i d args)) ∧
    (args ≠ [] →
      Z3CHCInterface.fact (Z3Expr.app i d args) = args.getLast?) := by
  constructor
  · intro h
    subst h
    rfl
  · intro h
    unfold Z3CHCInterface.fact
    simp only [Z3Expr.is_app, Z3Expr.num_args, Z3Expr.arg, eq_self_iff_true,
      if_true]
    rw [if_neg (by simpa using h)]
    rw [List.getLast?_eq_getElem?]

theorem fact_last_argument_w :
    Z3CHCInterface.fact (Z3Expr.app 0 ⟨Z3DeclKind.opOther "u", "f"⟩ []) =
      some (Z3Expr.app 0 ⟨Z3DeclKind.opOther "u", "f"⟩ []) ∧
    Z3CHCInterface.fact
        (Z3Expr.app 1 ⟨Z3DeclKind.opOther "u", "g"⟩ [Z3Expr.leaf 2 "x"]) =
      [Z3Expr.leaf 2 "x"].getLast? :=
  ⟨(fact_last_argument 0 ⟨Z3DeclKind.opOther "u", "f"⟩ []).1 rfl,
   (fact_last_argument 1 ⟨Z3DeclKind.opOther "u", "g"⟩ [Z3Expr.leaf 2 "x"]).2
     (by simp)⟩

/-- C9: the node-map membership assertion checked when a node is popped can
never fire: the seed is inserted before the loop and every premise is
inserted in the iteration that may push it, so extraction never fails with
the pop contract violation. -/
theorem cexGraph_pop_assert_unreachable (pf : Z3Expr) :
    cexGraph pf ≠ .error .popAssert := by
  intro h
  rcases cexGraph_err_elim h with ⟨h1, _, _⟩ | ⟨h1, _⟩ | h1 | ⟨h1, _⟩ |
    ⟨root, nd, _, _, hloop⟩
  · exact absurd h1 (by simp)
  · exact absurd h1 (by simp)
  · exact absurd h1 (by simp)
  · exact absurd h1 (by simp)
  · exact (cexLoop_runA root _ _ (InvA_init root nd)).2.1.1 hloop

theorem cexGraph_pop_assert_unreachable_w :
    cexGraph falseOnly ≠ .error .popAssert :=
  cexGraph_pop_assert_unreachable falseOnly

/-- C10: a zero-argument root whose declaration is the false constant passes
both entry checks yet makes the first traversal step's access to argument 0
out of range; with at least one root argument, no argument access performed
during extraction is ever out of range. -/
theorem cexGraph_rootArg_range :
    (falseOnly.is_app = true ∧
      Z3CHCInterface.fact falseOnly = some falseOnly ∧
      falseOnly.declOf = some ⟨Z3DeclKind.opFalse, "false"⟩ ∧
      cexGraph falseOnly = .error .argRange) ∧
    (∀ q : Z3Expr, q.is_app = true → 1 ≤ q.num_args →
      cexGraph q ≠ .error .argRange) := by
  constructor
  · exact ⟨rfl, by decide, rfl, by decide⟩
  · intro q happ hargs h
    rcases cexGraph_err_elim h with ⟨h1, _, _⟩ | ⟨h1, _⟩ | h1 | ⟨_, h1⟩ |
      ⟨root, nd, _, _, hloop⟩
    · exact absurd h1 (by simp)
    · exact absurd h1 (by simp)
    · exact absurd h1 (by simp)
    · obtain ⟨c, hc⟩ := @Z3Expr.arg_isSome_of_lt q 0 happ (by omega)
      rw [h1] at hc
      exact absurd hc (by simp)
    · exact (cexLoop_runA root _ _ (InvA_init root nd)).2.1.2.2 hloop

theorem cexGraph_rootArg_range_w :
    cexGraph pfW2 ≠ .error .argRange :=
  cexGraph_rootArg_range.2 pfW2 (by decide) (by decide)
